import Mathlib

/-!
Shallow embedding of the hybrid retrieval ranking engine and the
greenwashing claim pipeline of the Green-Bond monitoring assistant.

Sources embedded:
- `src/RAG_ESG/src/db/vector_store.py`, `VectorStore.search_hybrid`
  (lines 58-89) together with its `doc_key` helper;
- `src/RAG_ESG/src/greenwashing_verifier.py`, `GreenwashingVerifier`
  methods `detect_claims`, `verify_claims`, `green_implement_ratio`.

Modelling conventions:
- Python floats are modelled as exact rationals; the scores that appear in
  the program are finite sums of terms `alpha * 1/(1+r)`.
- The Python dict `combined` is modelled as an insertion-ordered
  association list: assigning to an existing key updates it in place,
  assigning to a fresh key appends at the end, exactly as CPython dicts
  behave and exactly what `sorted(combined.values())` observes.
- The merge key `doc_key` is the Python f-string
  `f"{source}-{page}-{hash(text)}"`. We model it as the triple
  `(source, page, text)`: the builtin `hash` is deterministic within a
  run and is modelled as collision-free, and the string concatenation is
  modelled as non-ambiguous.
- Python `str.lower` is modelled by mapping `Char.toLower` over the
  characters; the vocabulary and verdict strings involved are ASCII.
- A Python `raise` escaping a function is modelled by `Except.error`;
  the external dense search, lexical search and LLM classify calls are
  parameters of the embedded functions, as the spec allows for the merge
  step ("dense_hits/lexical_hits may be produced internally rather than
  passed in, but the merge step itself must remain pure").
-/

set_option autoImplicit false

namespace GreenBond

/-- A retrieved chunk: origin document, optional page number, text body.
This is the metadata `search_hybrid` and the verifier actually read from a
langchain `Document` (`metadata["source"]`, `metadata["page"]`,
`page_content`). -/
structure Chunk where
  source : String
  page : Option Nat
  text : String
deriving DecidableEq, Repr

/-- Merge key of `vector_store.py` line 70:
`f"{doc.metadata.get('source','')}-{doc.metadata.get('page','')}-{hash(doc.page_content)}"`,
modelled as the triple of the three fields (see the header comment). -/
abbrev DocKey : Type := String × Option Nat × String

def doc_key (c : Chunk) : DocKey := (c.source, c.page, c.text)

/-- Rank-based normalised score `1 / (1 + rank)` used for both retriever
lists in `search_hybrid`. -/
def invRank (r : Nat) : ℚ := 1 / (1 + (r : ℚ))

/-- The Python dict `combined : Dict[str, Tuple[Document, float]]`,
as an insertion-ordered association list. -/
abbrev Combined : Type := List (DocKey × Chunk × ℚ)

/-- Dict lookup `combined[key]` / `key in combined`. -/
def getKey? : Combined → DocKey → Option (Chunk × ℚ)
  | [], _ => none
  | (k0, v0) :: rest, k => if k0 = k then some v0 else getKey? rest k

/-- Dict assignment `combined[key] = v`: update in place when the key is
present, append at the end when it is fresh (CPython dict order). -/
def setKey : Combined → DocKey → Chunk × ℚ → Combined
  | [], k, v => [(k, v)]
  | (k0, v0) :: rest, k, v =>
    if k0 = k then (k, v) :: rest else (k0, v0) :: setKey rest k v

/-- First loop of `search_hybrid` (lines 74-77): for each `(doc, score)` at
position `rank` in `vector_hits`, execute
`combined[doc_key(doc)] = (doc, alpha * (1 / (1 + rank)))`.
Note the plain assignment: an earlier entry under the same key is
overwritten, and the FAISS distance in the pair is ignored. -/
def buildDense (alpha : ℚ) : Combined → Nat → List (Chunk × ℚ) → Combined
  | m, _, [] => m
  | m, rank, (doc, _) :: rest =>
    buildDense alpha (setKey m (doc_key doc) (doc, alpha * invRank rank)) (rank + 1) rest

/-- Second loop of `search_hybrid` (lines 80-86): for each `doc` at
position `rank` in `bm25_hits`, add `(1 - alpha) * (1 / (1 + rank))` to the
accumulated score when the key is already present, otherwise insert the
document with that score. -/
def buildLex (alpha : ℚ) : Combined → Nat → List Chunk → Combined
  | m, _, [] => m
  | m, rank, doc :: rest =>
    let key := doc_key doc
    let bm25_score := invRank rank
    let m' :=
      match getKey? m key with
      | some dv => setKey m key (dv.1, dv.2 + (1 - alpha) * bm25_score)
      | none => setKey m key (doc, (1 - alpha) * bm25_score)
    buildLex alpha m' (rank + 1) rest

/-- The fully merged dict of `search_hybrid`, built from the dense hits
then the lexical hits. -/
def combinedScores (alpha : ℚ) (vector_hits : List (Chunk × ℚ))
    (bm25_hits : List Chunk) : Combined :=
  buildLex alpha (buildDense alpha [] 0 vector_hits) 0 bm25_hits

/-- Comparison used by `sorted(combined.values(), key=lambda x: x[1],
reverse=True)`: descending combined score. -/
@[reducible] def scoreGE (x y : Chunk × ℚ) : Prop := y.2 ≤ x.2

instance : DecidableRel scoreGE :=
  fun x y => inferInstanceAs (Decidable (y.2 ≤ x.2))

instance : IsTotal (Chunk × ℚ) scoreGE := ⟨fun a b => le_total b.2 a.2⟩

instance : IsTrans (Chunk × ℚ) scoreGE := ⟨fun _ _ _ hab hbc => le_trans hbc hab⟩

/-- Python slice `l[:k]` for an `int` bound `k`: nonnegative `k` keeps the
first `k` elements; negative `k` drops the last `|k|` elements. -/
def pySliceTo {α : Type} (k : Int) (l : List α) : List α :=
  if 0 ≤ k then l.take k.toNat else l.take (l.length - (-k).toNat)

/-- Error raised by `search_hybrid` line 64:
`raise RuntimeError("Vector store not initialized")` when `self._store`
is falsy, i.e. no documents were ever ingested. The spec error taxonomy
names this condition NotReady. -/
inductive SearchError where
  | notReady
deriving DecidableEq, Repr

/-- `VectorStore.search_hybrid` (lines 58-89). `storeLoaded` embeds the
truthiness of `self._store`; `vector_hits` and `bm25_hits` are the results
of the two external searches (the second already defaulted to `[]` when
no BM25 index exists). No validation of `k` or `alpha` is performed. -/
def search_hybrid (storeLoaded : Bool) (vector_hits : List (Chunk × ℚ))
    (bm25_hits : List Chunk) (k : Int) (alpha : ℚ) :
    Except SearchError (List (Chunk × ℚ)) :=
  if storeLoaded then
    let combined := combinedScores alpha vector_hits bm25_hits
    let ranked := List.insertionSort scoreGE (combined.map Prod.snd)
    Except.ok (pySliceTo k ranked)
  else
    Except.error SearchError.notReady

/-! Greenwashing pipeline (`greenwashing_verifier.py`). -/

/-- Python `str.lower()` restricted to the ASCII range, as a character map
(the strings the program compares are ASCII). -/
def pyLower (s : String) : String := String.mk (s.data.map Char.toLower)

/-- Prefix test on character lists: does `needle` start `hay`? -/
def prefScan : List Char → List Char → Bool
  | [], _ => true
  | _ :: _, [] => false
  | a :: as, b :: bs => a == b && prefScan as bs

/-- Substring test on character lists, scanning every start position.
This is the semantics of the Python membership test `needle in hay`. -/
def subScan (needle : List Char) : List Char → Bool
  | [] => prefScan needle []
  | b :: bs => prefScan needle (b :: bs) || subScan needle bs

/-- Python `needle in hay` on strings: substring containment. -/
def containsStr (hay needle : String) : Bool := subScan needle.data hay.data

/-- The fixed claim vocabulary of `detect_claims` (lines 29-41). -/
def green_terms : List String :=
  ["green", "renewable", "solar", "wind", "energy efficiency", "emissions",
   "carbon", "sustainable", "impact", "sdg", "taxonomy"]

/-- `GreenwashingVerifier.detect_claims` (lines 24-47): keep, in input
order, the chunks whose lowercased text contains some vocabulary term,
each paired with the tag string `"claim_detected"`. Pure keyword scan,
no LLM involved. -/
def detect_claims (documents : List Chunk) : List (Chunk × String) :=
  documents.filterMap fun doc =>
    if green_terms.any (fun term => containsStr (pyLower doc.text) term) then
      some (doc, "claim_detected")
    else none

/-- One result dict of `verify_claims`:
`{"page": ..., "source": ..., "verdict": ...}`. -/
structure ClaimRecord where
  page : Option Nat
  source : String
  verdict : String
deriving DecidableEq, Repr

/-- `GreenwashingVerifier.verify_claims` (lines 49-64). The LLM chain call
`self._verification_chain.run(text=doc.page_content)` is the external
`classify` parameter; a call that raises is an `Except.error`, and the
loop body has no try/except, so the first raising call propagates out of
the whole function. -/
def verify_claims (classify : String → Except String String) :
    List (Chunk × String) → Except String (List ClaimRecord)
  | [] => Except.ok []
  | (doc, _) :: rest =>
    match classify doc.text with
    | Except.error e => Except.error e
    | Except.ok verdict =>
      match verify_claims classify rest with
      | Except.error e => Except.error e
      | Except.ok results =>
        Except.ok ({ page := doc.page, source := doc.source, verdict := verdict } :: results)

/-- `GreenwashingVerifier.green_implement_ratio` (lines 66-71): `0.0` on
the empty list, otherwise the number of records whose lowercased verdict
contains `"implemented"`, divided by the number of records. -/
def green_implement_ratio (verified : List ClaimRecord) : ℚ :=
  match verified with
  | [] => 0
  | _ =>
    ((verified.filter fun v => containsStr (pyLower v.verdict) "implemented").length : ℚ)
      / (verified.length : ℚ)

/-! Characterization of the merged dict.

`denseEntry alpha i vh k` is the entry the first loop leaves under key `k`
when started at rank `i`: the LAST occurrence of the key wins, because the
loop assigns rather than accumulates. `lexContrib alpha k i bh` is the
total score the second loop adds for key `k`; `firstLex bh k` is the
document stored when the key enters the dict through the lexical loop. -/

def denseEntry (alpha : ℚ) : Nat → List (Chunk × ℚ) → DocKey → Option (Chunk × ℚ)
  | _, [], _ => none
  | i, (c, _) :: rest, k =>
    match denseEntry alpha (i + 1) rest k with
    | some e => some e
    | none => if doc_key c = k then some (c, alpha * invRank i) else none

def lexContrib (alpha : ℚ) (k : DocKey) : Nat → List Chunk → ℚ
  | _, [] => 0
  | i, c :: rest =>
    (if doc_key c = k then (1 - alpha) * invRank i else 0) + lexContrib alpha k (i + 1) rest

def firstLex : List Chunk → DocKey → Option Chunk
  | [], _ => none
  | c :: rest, k => if doc_key c = k then some c else firstLex rest k

/-- What the whole merge leaves under key `k`. -/
def mergedEntry (alpha : ℚ) (vh : List (Chunk × ℚ)) (bh : List Chunk)
    (k : DocKey) : Option (Chunk × ℚ) :=
  match denseEntry alpha 0 vh k with
  | some dv => some (dv.1, dv.2 + lexContrib alpha k 0 bh)
  | none =>
    match firstLex bh k with
    | some c => some (c, lexContrib alpha k 0 bh)
    | none => none

theorem getKey?_setKey (m : Combined) (k k' : DocKey) (v : Chunk × ℚ) :
    getKey? (setKey m k v) k' = if k = k' then some v else getKey? m k' := by
  induction m with
  | nil => simp [setKey, getKey?]
  | cons e rest ih =>
    obtain ⟨k0, v0⟩ := e
    simp only [setKey]
    by_cases h0 : k0 = k
    · subst h0
      by_cases h1 : k0 = k'
      · subst h1; simp [getKey?]
      · simp [getKey?, h1]
    · simp only [if_neg h0, getKey?, ih]
      by_cases h1 : k0 = k'
      · subst h1
        have hkk : ¬ k = k0 := fun h => h0 h.symm
        simp [hkk]
      · simp [h1]

theorem getKey?_buildDense (alpha : ℚ) (vh : List (Chunk × ℚ)) :
    ∀ (m : Combined) (i : Nat) (k : DocKey),
      getKey? (buildDense alpha m i vh) k =
        (denseEntry alpha i vh k).or (getKey? m k) := by
  induction vh with
  | nil => intro m i k; simp [buildDense, denseEntry, Option.or]
  | cons p rest ih =>
    intro m i k
    obtain ⟨c, q⟩ := p
    simp only [buildDense, denseEntry]
    rw [ih, getKey?_setKey]
    cases hde : denseEntry alpha (i + 1) rest k with
    | some e => simp
    | none =>
      by_cases hk : doc_key c = k
      · simp [hk]
      · simp [hk]

theorem getKey?_buildLex (alpha : ℚ) (bh : List Chunk) :
    ∀ (m : Combined) (i : Nat) (k : DocKey),
      getKey? (buildLex alpha m i bh) k =
        match getKey? m k with
        | some dv => some (dv.1, dv.2 + lexContrib alpha k i bh)
        | none =>
          match firstLex bh k with
          | some c => some (c, lexContrib alpha k i bh)
          | none => none := by
  induction bh with
  | nil =>
    intro m i k
    cases hm : getKey? m k <;> simp [buildLex, lexContrib, firstLex, hm]
  | cons c0 rest ih =>
    intro m i k
    simp only [buildLex]
    by_cases hk : doc_key c0 = k
    · subst hk
      cases hm : getKey? m (doc_key c0) with
      | some dv =>
        simp only [hm]
        rw [ih, getKey?_setKey, if_pos rfl]
        simp [lexContrib, add_assoc]
      | none =>
        simp only [hm]
        rw [ih, getKey?_setKey, if_pos rfl]
        simp [lexContrib, firstLex]
    · cases hm : getKey? m (doc_key c0) with
      | some dv =>
        simp only [hm]
        rw [ih, getKey?_setKey, if_neg hk]
        simp [lexContrib, firstLex, hk]
      | none =>
        simp only [hm]
        rw [ih, getKey?_setKey, if_neg hk]
        simp [lexContrib, firstLex, hk]

/-- Master characterization: the merged dict of `search_hybrid`, queried
at any key. -/
theorem getKey?_combinedScores (alpha : ℚ) (vh : List (Chunk × ℚ))
    (bh : List Chunk) (k : DocKey) :
    getKey? (combinedScores alpha vh bh) k = mergedEntry alpha vh bh k := by
  rw [combinedScores, getKey?_buildLex, getKey?_buildDense]
  simp only [getKey?, Option.or_none, mergedEntry]

theorem denseEntry_eq_none (alpha : ℚ) (vh : List (Chunk × ℚ)) :
    ∀ (i : Nat) (k : DocKey), (∀ p ∈ vh, doc_key p.1 ≠ k) →
      denseEntry alpha i vh k = none := by
  induction vh with
  | nil => intro i k _; rfl
  | cons p rest ih =>
    intro i k h
    obtain ⟨c, q⟩ := p
    have hrest := ih (i + 1) k (fun p hp => h p (List.mem_cons_of_mem _ hp))
    have hc : doc_key c ≠ k := h (c, q) (List.mem_cons_self _ _)
    simp [denseEntry, hrest, hc]

theorem lexContrib_eq_zero (alpha : ℚ) (bh : List Chunk) :
    ∀ (i : Nat) (k : DocKey), (∀ c ∈ bh, doc_key c ≠ k) →
      lexContrib alpha k i bh = 0 := by
  induction bh with
  | nil => intro i k _; rfl
  | cons c rest ih =>
    intro i k h
    have hc : doc_key c ≠ k := h c (List.mem_cons_self _ _)
    have hrest := ih (i + 1) k (fun c' hc' => h c' (List.mem_cons_of_mem _ hc'))
    simp [lexContrib, hc, hrest]

theorem firstLex_eq_none (bh : List Chunk) :
    ∀ (k : DocKey), (∀ c ∈ bh, doc_key c ≠ k) → firstLex bh k = none := by
  induction bh with
  | nil => intro k _; rfl
  | cons c rest ih =>
    intro k h
    have hc : doc_key c ≠ k := h c (List.mem_cons_self _ _)
    simp [firstLex, hc, ih k (fun c' hc' => h c' (List.mem_cons_of_mem _ hc'))]

theorem denseEntry_of_get? (alpha : ℚ) (vh : List (Chunk × ℚ)) :
    ∀ (i r : Nat) (c : Chunk) (q : ℚ),
      (vh.map fun p => doc_key p.1).Nodup →
      vh.get? r = some (c, q) →
      denseEntry alpha i vh (doc_key c) = some (c, alpha * invRank (i + r)) := by
  induction vh with
  | nil => intro i r c q _ h; simp at h
  | cons p rest ih =>
    intro i r c q hnd hget
    obtain ⟨c0, q0⟩ := p
    rw [List.map_cons, List.nodup_cons] at hnd
    obtain ⟨hnotin, hnd'⟩ := hnd
    cases r with
    | zero =>
      rw [List.get?_cons_zero] at hget
      injection hget with h1
      injection h1 with hc hq
      subst hc
      have hnone : denseEntry alpha (i + 1) rest (doc_key c0) = none :=
        denseEntry_eq_none alpha rest (i + 1) (doc_key c0)
          (fun p hp he => hnotin (he ▸ List.mem_map_of_mem _ hp))
      simp [denseEntry, hnone]
    | succ r' =>
      rw [List.get?_cons_succ] at hget
      have ihh := ih (i + 1) r' c q hnd' hget
      have harith : i + 1 + r' = i + (r' + 1) := by omega
      rw [harith] at ihh
      simp [denseEntry, ihh]

theorem lexContrib_of_get? (alpha : ℚ) (bh : List Chunk) :
    ∀ (i s : Nat) (c : Chunk),
      (bh.map doc_key).Nodup →
      bh.get? s = some c →
      lexContrib alpha (doc_key c) i bh = (1 - alpha) * invRank (i + s) := by
  induction bh with
  | nil => intro i s c _ h; simp at h
  | cons c0 rest ih =>
    intro i s c hnd hget
    rw [List.map_cons, List.nodup_cons] at hnd
    obtain ⟨hnotin, hnd'⟩ := hnd
    cases s with
    | zero =>
      rw [List.get?_cons_zero] at hget
      injection hget with h1
      subst h1
      have hzero : lexContrib alpha (doc_key c0) (i + 1) rest = 0 :=
        lexContrib_eq_zero alpha rest (i + 1) (doc_key c0)
          (fun c' hc' he => hnotin (he ▸ List.mem_map_of_mem _ hc'))
      simp [lexContrib, hzero]
    | succ s' =>
      rw [List.get?_cons_succ] at hget
      have hmem : c ∈ rest := List.get?_mem hget
      have hne : doc_key c0 ≠ doc_key c :=
        fun he => hnotin (he ▸ List.mem_map_of_mem _ hmem)
      have ihh := ih (i + 1) s' c hnd' hget
      have harith : i + 1 + s' = i + (s' + 1) := by omega
      rw [harith] at ihh
      simp [lexContrib, hne, ihh]

theorem firstLex_of_get? (bh : List Chunk) :
    ∀ (s : Nat) (c : Chunk),
      (bh.map doc_key).Nodup →
      bh.get? s = some c →
      firstLex bh (doc_key c) = some c := by
  induction bh with
  | nil => intro s c _ h; simp at h
  | cons c0 rest ih =>
    intro s c hnd hget
    rw [List.map_cons, List.nodup_cons] at hnd
    obtain ⟨hnotin, hnd'⟩ := hnd
    cases s with
    | zero =>
      rw [List.get?_cons_zero] at hget
      injection hget with h1
      subst h1
      simp [firstLex]
    | succ s' =>
      rw [List.get?_cons_succ] at hget
      have hmem : c ∈ rest := List.get?_mem hget
      have hne : doc_key c0 ≠ doc_key c :=
        fun he => hnotin (he ▸ List.mem_map_of_mem _ hmem)
      simp [firstLex, hne, ih s' c hnd' hget]

theorem denseEntry_append_last (alpha : ℚ) (pre : List (Chunk × ℚ)) :
    ∀ (i : Nat) (c : Chunk) (q : ℚ) (post : List (Chunk × ℚ)),
      (∀ p ∈ post, doc_key p.1 ≠ doc_key c) →
      denseEntry alpha i (pre ++ (c, q) :: post) (doc_key c) =
        some (c, alpha * invRank (i + pre.length)) := by
  induction pre with
  | nil =>
    intro i c q post hpost
    have hnone := denseEntry_eq_none alpha post (i + 1) (doc_key c) hpost
    simp [denseEntry, hnone]
  | cons p pre' ih =>
    intro i c q post hpost
    obtain ⟨c0, q0⟩ := p
    have ihh := ih (i + 1) c q post hpost
    have harith : i + 1 + pre'.length = i + (pre'.length + 1) := by omega
    rw [harith] at ihh
    simp [denseEntry, ihh]

theorem lexContrib_append (alpha : ℚ) (k : DocKey) (xs : List Chunk) :
    ∀ (i : Nat) (ys : List Chunk),
      lexContrib alpha k i (xs ++ ys) =
        lexContrib alpha k i xs + lexContrib alpha k (i + xs.length) ys := by
  induction xs with
  | nil => intro i ys; simp [lexContrib]
  | cons x xs' ih =>
    intro i ys
    have harith : i + 1 + xs'.length = i + (xs'.length + 1) := by omega
    rw [List.cons_append]
    simp only [lexContrib, List.length_cons]
    rw [ih (i + 1) ys, harith, add_assoc]

theorem firstLex_append_of_none (pre : List Chunk) :
    ∀ (k : DocKey) (rest : List Chunk), (∀ c' ∈ pre, doc_key c' ≠ k) →
      firstLex (pre ++ rest) k = firstLex rest k := by
  induction pre with
  | nil => intro k rest _; rfl
  | cons c0 pre' ih =>
    intro k rest h
    have hc : doc_key c0 ≠ k := h c0 (List.mem_cons_self _ _)
    simp [firstLex, hc, ih k rest (fun c' hc' => h c' (List.mem_cons_of_mem _ hc'))]

/-! Structural invariants of the merged dict: keys are pairwise distinct,
and the chunk stored under a key has exactly that key. -/

def Coherent (m : Combined) : Prop := ∀ e ∈ m, doc_key e.2.1 = e.1

theorem mem_keys_setKey (m : Combined) (k : DocKey) (v : Chunk × ℚ) (k' : DocKey) :
    k' ∈ (setKey m k v).map Prod.fst → k' ∈ m.map Prod.fst ∨ k' = k := by
  induction m with
  | nil =>
    intro h
    rw [setKey, List.map_cons, List.map_nil, List.mem_cons] at h
    rcases h with h | h
    · right; exact h
    · exact absurd h (List.not_mem_nil k')
  | cons e rest ih =>
    obtain ⟨k0, v0⟩ := e
    intro h
    by_cases h0 : k0 = k
    · rw [setKey, if_pos h0, List.map_cons, List.mem_cons] at h
      rcases h with h | h
      · right; exact h
      · left
        rw [List.map_cons, List.mem_cons]
        right; exact h
    · rw [setKey, if_neg h0, List.map_cons, List.mem_cons] at h
      rcases h with h | h
      · left
        rw [List.map_cons, List.mem_cons]
        left; exact h
      · rcases ih h with h' | h'
        · left
          rw [List.map_cons, List.mem_cons]
          right; exact h'
        · right; exact h'

theorem nodup_keys_setKey (m : Combined) (k : DocKey) (v : Chunk × ℚ)
    (h : (m.map Prod.fst).Nodup) : ((setKey m k v).map Prod.fst).Nodup := by
  induction m with
  | nil => simp [setKey]
  | cons e rest ih =>
    obtain ⟨k0, v0⟩ := e
    rw [List.map_cons, List.nodup_cons] at h
    obtain ⟨hnotin, hnd⟩ := h
    by_cases h0 : k0 = k
    · subst h0
      rw [setKey, if_pos rfl, List.map_cons, List.nodup_cons]
      exact ⟨hnotin, hnd⟩
    · rw [setKey, if_neg h0, List.map_cons, List.nodup_cons]
      refine ⟨fun hmem => ?_, ih hnd⟩
      rcases mem_keys_setKey rest k v k0 hmem with h' | h'
      · exact hnotin h'
      · exact h0 h'

theorem coherent_setKey (m : Combined) (k : DocKey) (v : Chunk × ℚ)
    (hm : Coherent m) (hv : doc_key v.1 = k) : Coherent (setKey m k v) := by
  induction m with
  | nil =>
    intro e he
    simp [setKey] at he
    subst he; exact hv
  | cons e0 rest ih =>
    obtain ⟨k0, v0⟩ := e0
    have hm0 : doc_key v0.1 = k0 := hm (k0, v0) (List.mem_cons_self _ _)
    have hmrest : Coherent rest := fun e he => hm e (List.mem_cons_of_mem _ he)
    by_cases h0 : k0 = k
    · intro e he
      simp only [setKey, if_pos h0, List.mem_cons] at he
      rcases he with he | he
      · subst he; exact hv
      · exact hmrest e he
    · intro e he
      simp only [setKey, if_neg h0, List.mem_cons] at he
      rcases he with he | he
      · subst he; exact hm0
      · exact ih hmrest e he

theorem nodup_keys_buildDense (alpha : ℚ) (vh : List (Chunk × ℚ)) :
    ∀ (m : Combined) (i : Nat), (m.map Prod.fst).Nodup →
      ((buildDense alpha m i vh).map Prod.fst).Nodup := by
  induction vh with
  | nil => intro m i h; exact h
  | cons p rest ih =>
    intro m i h
    obtain ⟨c, q⟩ := p
    exact ih _ (i + 1) (nodup_keys_setKey m _ _ h)

theorem coherent_buildDense (alpha : ℚ) (vh : List (Chunk × ℚ)) :
    ∀ (m : Combined) (i : Nat), Coherent m →
      Coherent (buildDense alpha m i vh) := by
  induction vh with
  | nil => intro m i h; exact h
  | cons p rest ih =>
    intro m i h
    obtain ⟨c, q⟩ := p
    exact ih _ (i + 1) (coherent_setKey m _ _ h rfl)

theorem nodup_keys_buildLex (alpha : ℚ) (bh : List Chunk) :
    ∀ (m : Combined) (i : Nat), (m.map Prod.fst).Nodup →
      ((buildLex alpha m i bh).map Prod.fst).Nodup := by
  induction bh with
  | nil => intro m i h; exact h
  | cons c rest ih =>
    intro m i h
    simp only [buildLex]
    cases getKey? m (doc_key c) with
    | some dv => exact ih _ (i + 1) (nodup_keys_setKey m _ _ h)
    | none => exact ih _ (i + 1) (nodup_keys_setKey m _ _ h)

theorem getKey?_mem (m : Combined) (k : DocKey) (v : Chunk × ℚ) :
    getKey? m k = some v → (k, v) ∈ m := by
  induction m with
  | nil => intro h; simp [getKey?] at h
  | cons e rest ih =>
    obtain ⟨k0, v0⟩ := e
    intro h
    by_cases h0 : k0 = k
    · subst h0
      rw [getKey?, if_pos rfl] at h
      injection h with h
      subst h
      exact List.mem_cons_self _ _
    · rw [getKey?, if_neg h0] at h
      exact List.mem_cons_of_mem _ (ih h)

theorem coherent_buildLex (alpha : ℚ) (bh : List Chunk) :
    ∀ (m : Combined) (i : Nat), Coherent m →
      Coherent (buildLex alpha m i bh) := by
  induction bh with
  | nil => intro m i h; exact h
  | cons c rest ih =>
    intro m i h
    simp only [buildLex]
    cases hg : getKey? m (doc_key c) with
    | some dv =>
      have hdv : doc_key dv.1 = doc_key c := h (doc_key c, dv) (getKey?_mem m _ dv hg)
      exact ih _ (i + 1) (coherent_setKey m _ _ h hdv)
    | none => exact ih _ (i + 1) (coherent_setKey m _ _ h rfl)

theorem nodup_keys_combinedScores (alpha : ℚ) (vh : List (Chunk × ℚ))
    (bh : List Chunk) : ((combinedScores alpha vh bh).map Prod.fst).Nodup :=
  nodup_keys_buildLex alpha bh _ 0
    (nodup_keys_buildDense alpha vh [] 0 List.nodup_nil)

theorem coherent_combinedScores (alpha : ℚ) (vh : List (Chunk × ℚ))
    (bh : List Chunk) : Coherent (combinedScores alpha vh bh) :=
  coherent_buildLex alpha bh _ 0
    (coherent_buildDense alpha vh [] 0 (fun e he => absurd he (List.not_mem_nil e)))

theorem getKey?_of_mem_nodup (m : Combined) (k : DocKey) (v : Chunk × ℚ)
    (hnd : (m.map Prod.fst).Nodup) (hm : (k, v) ∈ m) : getKey? m k = some v := by
  induction m with
  | nil => exact absurd hm (List.not_mem_nil _)
  | cons e rest ih =>
    obtain ⟨k0, v0⟩ := e
    rw [List.map_cons, List.nodup_cons] at hnd
    obtain ⟨hnotin, hnd'⟩ := hnd
    rcases List.mem_cons.mp hm with he | he
    · injection he with h1 h2
      subst h1; subst h2
      rw [getKey?, if_pos rfl]
    · have hk : k0 ≠ k := by
        intro h0
        subst h0
        have hmem := List.mem_map_of_mem Prod.fst he
        exact hnotin hmem
      rw [getKey?, if_neg hk]
      exact ih hnd' he

/-! Shape and bounds of the scores occurring in the merged dict. -/

theorem invRank_pos (r : Nat) : 0 < invRank r := by
  rw [invRank]
  positivity

theorem invRank_le_one (r : Nat) : invRank r ≤ 1 := by
  rw [invRank, div_le_one (by positivity)]
  have : (0 : ℚ) ≤ (r : ℚ) := Nat.cast_nonneg r
  linarith

theorem denseEntry_score_form (alpha : ℚ) (vh : List (Chunk × ℚ)) :
    ∀ (i : Nat) (k : DocKey) (c : Chunk) (v : ℚ),
      denseEntry alpha i vh k = some (c, v) → ∃ r, v = alpha * invRank r := by
  induction vh with
  | nil => intro i k c v h; simp [denseEntry] at h
  | cons p rest ih =>
    intro i k c v h
    obtain ⟨c0, q0⟩ := p
    rw [denseEntry] at h
    cases hde : denseEntry alpha (i + 1) rest k with
    | some e =>
      rw [hde] at h
      obtain ⟨ce, ve⟩ := e
      injection h with h
      injection h with h1 h2
      subst h2
      exact ih (i + 1) k ce ve hde
    | none =>
      rw [hde] at h
      by_cases hk : doc_key c0 = k
      · rw [if_pos hk] at h
        injection h with h
        injection h with h1 h2
        exact ⟨i, h2.symm⟩
      · rw [if_neg hk] at h
        exact absurd h (by simp)

theorem lexContrib_form (alpha : ℚ) (bh : List Chunk) :
    ∀ (i : Nat) (k : DocKey), (bh.map doc_key).Nodup →
      lexContrib alpha k i bh = 0 ∨
        ∃ s, lexContrib alpha k i bh = (1 - alpha) * invRank s := by
  induction bh with
  | nil => intro i k _; left; rfl
  | cons c0 rest ih =>
    intro i k hnd
    rw [List.map_cons, List.nodup_cons] at hnd
    obtain ⟨hnotin, hnd'⟩ := hnd
    by_cases hk : doc_key c0 = k
    · right
      refine ⟨i, ?_⟩
      have hzero : lexContrib alpha k (i + 1) rest = 0 := by
        refine lexContrib_eq_zero alpha rest (i + 1) k (fun c' hc' he => ?_)
        have hmem := List.mem_map_of_mem doc_key hc'
        rw [he, ← hk] at hmem
        exact hnotin hmem
      simp [lexContrib, hk, hzero]
    · rcases ih (i + 1) k hnd' with h | ⟨s, hs⟩
      · left; simp [lexContrib, hk, h]
      · right; exact ⟨s, by simp [lexContrib, hk, hs]⟩

/-! Bridge between the executable substring scan (the model of the Python
membership test) and the mathematical infix relation on character lists. -/

theorem prefScan_iff (needle : List Char) :
    ∀ hay : List Char, prefScan needle hay = true ↔ needle <+: hay := by
  induction needle with
  | nil => intro hay; simp [prefScan, List.nil_prefix]
  | cons a as ih =>
    intro hay
    cases hay with
    | nil => simp [prefScan, List.prefix_nil]
    | cons b bs =>
      simp [prefScan, List.cons_prefix_cons, Bool.and_eq_true, beq_iff_eq, ih bs, and_comm]

theorem subScan_iff (needle : List Char) :
    ∀ hay : List Char, subScan needle hay = true ↔ needle <:+: hay := by
  intro hay
  induction hay with
  | nil =>
    rw [subScan, prefScan_iff, List.prefix_nil, List.infix_nil]
  | cons b bs ih =>
    rw [subScan, List.infix_cons_iff, Bool.or_eq_true, prefScan_iff, ih]

theorem containsStr_iff (hay needle : String) :
    containsStr hay needle = true ↔ needle.data <:+: hay.data := by
  rw [containsStr, subScan_iff]

theorem containsStr_eq_decide (hay needle : String) :
    containsStr hay needle = decide (needle.data <:+: hay.data) := by
  by_cases h : needle.data <:+: hay.data
  · rw [decide_eq_true h, (containsStr_iff hay needle).mpr h]
  · rw [decide_eq_false h, ← Bool.not_eq_true]
    exact fun hc => h ((containsStr_iff hay needle).mp hc)

/-- Unfolding of `search_hybrid` on an initialised store. -/
theorem search_hybrid_true_eq (alpha : ℚ) (vh : List (Chunk × ℚ))
    (bh : List Chunk) (k : Int) :
    search_hybrid true vh bh k alpha =
      Except.ok (pySliceTo k
        (List.insertionSort scoreGE ((combinedScores alpha vh bh).map Prod.snd))) := rfl

theorem detect_flag_iff (doc : Chunk) :
    (green_terms.any fun term => containsStr (pyLower doc.text) term) = true ↔
      ∃ t ∈ green_terms, t.data <:+: (pyLower doc.text).data := by
  simp only [List.any_eq_true, containsStr_iff]

theorem detect_flag_eq_decide (doc : Chunk) :
    (green_terms.any fun term => containsStr (pyLower doc.text) term) =
      decide (∃ t ∈ green_terms, t.data <:+: (pyLower doc.text).data) := by
  by_cases h : ∃ t ∈ green_terms, t.data <:+: (pyLower doc.text).data
  · rw [decide_eq_true h, (detect_flag_iff doc).mpr h]
  · rw [decide_eq_false h, ← Bool.not_eq_true]
    exact fun hc => h ((detect_flag_iff doc).mp hc)

theorem filterMap_if_eq_map_filter {α β : Type} (p : α → Bool) (g : α → β) :
    ∀ l : List α,
      l.filterMap (fun a => if p a then some (g a) else none) =
        (l.filter p).map g := by
  intro l
  induction l with
  | nil => rfl
  | cons a l ih =>
    cases ha : p a with
    | true =>
      rw [List.filterMap_cons, List.filter_cons]
      simp [ha, ih]
    | false =>
      rw [List.filterMap_cons, List.filter_cons]
      simp [ha, ih]

/-- Concrete chunks used by the closed instances below. -/
def chunkSolar : Chunk :=
  { source := "report.pdf", page := some 3, text := "Solar capacity increased" }

def chunkWind : Chunk :=
  { source := "bond.pdf", page := some 7, text := "Wind farm output" }

/-- A classifier whose call raises (modelled as an error value). -/
def clfFail : String → Except String String :=
  fun _ => Except.error "classification timeout"

/-- C8: `detect_claims` returns exactly the chunks whose text contains at
least one case-insensitive substring occurrence of a vocabulary term
(occurrence in the lowercased text, the terms being lowercase), each
tagged `"claim_detected"`, in the same relative order as the input; the
function is a pure keyword scan with no classifier parameter, so no LLM
call is involved. -/
theorem detect_claims_keyword_filter (documents : List Chunk) :
    detect_claims documents =
      (documents.filter fun doc =>
        decide (∃ t ∈ green_terms, t.data <:+: (pyLower doc.text).data)).map
        (fun doc => (doc, "claim_detected")) := by
  rw [detect_claims]
  refine (filterMap_if_eq_map_filter
    (fun doc => green_terms.any fun term => containsStr (pyLower doc.text) term)
    (fun doc => (doc, "claim_detected")) documents).trans ?_
  congr 1
  exact List.filter_congr fun doc _ => detect_flag_eq_decide doc

/-- C4: the greenwashing score is 0 on the empty record list, and on a
nonempty list it is the number of records whose verdict contains the
substring `"implemented"` case-insensitively, divided by the total number
of records (unclear and empty verdicts stay in the denominator); in
particular two implemented plus two unclear records score 1/2. -/
theorem green_implement_ratio_spec :
    green_implement_ratio [] = 0 ∧
    (∀ (v : ClaimRecord) (vs : List ClaimRecord),
      green_implement_ratio (v :: vs) =
        (((v :: vs).filter fun r =>
            decide (("implemented" : String).data <:+: (pyLower r.verdict).data)).length : ℚ)
          / ((v :: vs).length : ℚ)) ∧
    green_implement_ratio
      [{ page := some 1, source := "r.pdf", verdict := "implemented" },
       { page := some 2, source := "r.pdf", verdict := "implemented" },
       { page := some 3, source := "r.pdf", verdict := "unclear" },
       { page := some 4, source := "r.pdf", verdict := "unclear" }] = 1 / 2 := by
  refine ⟨rfl, ?_, ?_⟩
  · intro v vs
    simp only [green_implement_ratio]
    rw [List.filter_congr fun r _ => containsStr_eq_decide (pyLower r.verdict) "implemented"]
  · have hlen : (List.filter (fun v => containsStr (pyLower v.verdict) "implemented")
        ([{ page := some 1, source := "r.pdf", verdict := "implemented" },
          { page := some 2, source := "r.pdf", verdict := "implemented" },
          { page := some 3, source := "r.pdf", verdict := "unclear" },
          { page := some 4, source := "r.pdf", verdict := "unclear" }] :
          List ClaimRecord)).length = 2 := by
      decide
    simp only [green_implement_ratio, hlen, List.length_cons, List.length_nil]
    norm_num

/-- C5 counterexample: a batch whose single classification call fails is
aborted: `verify_claims` returns the propagated error, not a record list
with verdict unclear plus a side error list. -/
theorem verify_claims_error_raised :
    verify_claims clfFail [(chunkSolar, "claim_detected")] =
        Except.error "classification timeout" ∧
      (verify_claims clfFail [(chunkSolar, "claim_detected")]).isOk = false :=
  ⟨rfl, rfl⟩

/-- C5 (amended): failure of a single classification call aborts the whole
batch. `verify_claims` succeeds exactly when every classify call on the
claimed chunks succeeds, and a failing call on the first claim propagates
its error to the caller; no per-item error list exists and no `unclear`
fallback is recorded. -/
theorem verify_claims_failure_aborts :
    (∀ (classify : String → Except String String) (claims : List (Chunk × String)),
      (verify_claims classify claims).isOk =
        claims.all fun p => (classify p.1.text).isOk) ∧
    (∀ (classify : String → Except String String) (doc : Chunk) (tag : String)
      (rest : List (Chunk × String)) (e : String),
      classify doc.text = Except.error e →
      verify_claims classify ((doc, tag) :: rest) = Except.error e) := by
  constructor
  · intro classify claims
    induction claims with
    | nil => rfl
    | cons p rest ih =>
      obtain ⟨doc, tag⟩ := p
      rw [verify_claims]
      cases hcl : classify doc.text with
      | error e => simp [List.all_cons, hcl, Except.isOk, Except.toBool]
      | ok verdict =>
        cases hres : verify_claims classify rest with
        | error e2 =>
          rw [hres] at ih
          simp only [Except.isOk, Except.toBool] at ih
          simp [List.all_cons, hcl, Except.isOk, Except.toBool, ← ih]
        | ok results =>
          rw [hres] at ih
          simp only [Except.isOk, Except.toBool] at ih
          simp [List.all_cons, hcl, Except.isOk, Except.toBool, ← ih]
  · intro classify doc tag rest e hcl
    rw [verify_claims, hcl]

theorem verify_claims_failure_aborts_witness :
    verify_claims clfFail
        [(chunkWind, "claim_detected"), (chunkSolar, "claim_detected")] =
      Except.error "classification timeout" :=
  verify_claims_failure_aborts.2 clfFail chunkWind "claim_detected"
    [(chunkSolar, "claim_detected")] "classification timeout" rfl

/-- C7: with no documents ever ingested the store guard fires and
`search_hybrid` fails (the RuntimeError the spec taxonomy calls NotReady),
while an initialised store with two empty hit lists yields the empty
result rather than an error, so the two situations are distinguishable. -/
theorem search_hybrid_not_ready_vs_empty :
    (∀ (vh : List (Chunk × ℚ)) (bh : List Chunk) (k : Int) (alpha : ℚ),
      search_hybrid false vh bh k alpha = Except.error SearchError.notReady) ∧
    (∀ (k : Int) (alpha : ℚ), search_hybrid true [] [] k alpha = Except.ok []) := by
  constructor
  · intro vh bh k alpha; rfl
  · intro k alpha
    rw [search_hybrid_true_eq]
    have hcs : combinedScores alpha [] [] = [] := rfl
    rw [hcs]
    simp [pySliceTo]

/-- C6 counterexample: on an initialised store, calling `search_hybrid`
with `k = 0` succeeds with the empty list; no InvalidArgument rejection
of `k ≤ 0` exists anywhere in the function. -/
theorem search_hybrid_k_zero_ok :
    search_hybrid true [(chunkWind, 2)] [] 0 (3 / 5) = Except.ok [] := by
  rw [search_hybrid_true_eq]
  simp [pySliceTo]

/-- C6 (amended): `search_hybrid` performs no validation of `k`: with the
store initialised, a call with `k ≤ 0` succeeds instead of failing with
InvalidArgument, and `k = 0` returns the empty list (the Python slice
`ranked[:0]`). -/
theorem search_hybrid_no_k_validation :
    (∀ (vh : List (Chunk × ℚ)) (bh : List Chunk) (alpha : ℚ) (k : Int),
      k ≤ 0 → (search_hybrid true vh bh k alpha).isOk = true) ∧
    (∀ (vh : List (Chunk × ℚ)) (bh : List Chunk) (alpha : ℚ),
      search_hybrid true vh bh 0 alpha = Except.ok []) := by
  constructor
  · intro vh bh alpha k _
    rw [search_hybrid_true_eq]
    rfl
  · intro vh bh alpha
    rw [search_hybrid_true_eq]
    simp [pySliceTo]

theorem search_hybrid_no_k_validation_witness :
    (search_hybrid true [] [chunkSolar] (-1) (1 / 2)).isOk = true :=
  search_hybrid_no_k_validation.1 [] [chunkSolar] (1 / 2) (-1) (by decide)

/-- Cons step of `lexContrib` when the head matches the key. -/
theorem lexContrib_cons_self (alpha : ℚ) (c : Chunk) (i : Nat) (rest : List Chunk) :
    lexContrib alpha (doc_key c) i (c :: rest) =
      (1 - alpha) * invRank i + lexContrib alpha (doc_key c) (i + 1) rest := by
  simp [lexContrib]

/-- C1: when each chunk identity occurs at most once in each hit list, a
chunk at dense rank r and lexical rank s gets merged score
alpha * 1/(1+r) + (1-alpha) * 1/(1+s); a chunk present in only one list
gets only that term; a chunk at rank 0 in both lists with alpha = 3/5
scores exactly 1 (the scores are modelled as exact rationals, and
0.6 + 0.4 is also exact in IEEE doubles). -/
theorem search_hybrid_score_formula :
    (∀ (alpha : ℚ) (vh : List (Chunk × ℚ)) (bh : List Chunk) (r s : Nat)
      (c : Chunk) (q : ℚ),
      (vh.map fun p => doc_key p.1).Nodup →
      (bh.map doc_key).Nodup →
      vh.get? r = some (c, q) →
      bh.get? s = some c →
      getKey? (combinedScores alpha vh bh) (doc_key c) =
        some (c, alpha * invRank r + (1 - alpha) * invRank s)) ∧
    (∀ (alpha : ℚ) (vh : List (Chunk × ℚ)) (bh : List Chunk) (r : Nat)
      (c : Chunk) (q : ℚ),
      (vh.map fun p => doc_key p.1).Nodup →
      (∀ c' ∈ bh, doc_key c' ≠ doc_key c) →
      vh.get? r = some (c, q) →
      getKey? (combinedScores alpha vh bh) (doc_key c) =
        some (c, alpha * invRank r)) ∧
    (∀ (alpha : ℚ) (vh : List (Chunk × ℚ)) (bh : List Chunk) (s : Nat) (c : Chunk),
      (bh.map doc_key).Nodup →
      (∀ p ∈ vh, doc_key p.1 ≠ doc_key c) →
      bh.get? s = some c →
      getKey? (combinedScores alpha vh bh) (doc_key c) =
        some (c, (1 - alpha) * invRank s)) ∧
    (∀ (c : Chunk) (q : ℚ),
      getKey? (combinedScores (3 / 5) [(c, q)] [c]) (doc_key c) = some (c, 1)) := by
  refine ⟨?_, ?_, ?_, ?_⟩
  · intro alpha vh bh r s c q hndv hndb hvr hbs
    have hd := denseEntry_of_get? alpha vh 0 r c q hndv hvr
    have hlc := lexContrib_of_get? alpha bh 0 s c hndb hbs
    rw [Nat.zero_add] at hd hlc
    rw [getKey?_combinedScores, mergedEntry, hd, hlc]
  · intro alpha vh bh r c q hndv hb hvr
    have hd := denseEntry_of_get? alpha vh 0 r c q hndv hvr
    rw [Nat.zero_add] at hd
    have hlc := lexContrib_eq_zero alpha bh 0 (doc_key c) hb
    rw [getKey?_combinedScores, mergedEntry, hd, hlc]
    simp
  · intro alpha vh bh s c hndb hv hbs
    have hd := denseEntry_eq_none alpha vh 0 (doc_key c) hv
    have hfl := firstLex_of_get? bh s c hndb hbs
    have hlc := lexContrib_of_get? alpha bh 0 s c hndb hbs
    rw [Nat.zero_add] at hlc
    rw [getKey?_combinedScores, mergedEntry, hd, hfl, hlc]
  · intro c q
    rw [getKey?_combinedScores, mergedEntry]
    have hd : denseEntry (3 / 5 : ℚ) 0 [(c, q)] (doc_key c) =
        some (c, (3 / 5 : ℚ) * invRank 0) := by
      simp [denseEntry]
    have hlc : lexContrib (3 / 5 : ℚ) (doc_key c) 0 [c] = (1 - 3 / 5 : ℚ) * invRank 0 := by
      simp [lexContrib]
    rw [hd, hlc]
    norm_num [invRank]

theorem search_hybrid_score_formula_witness :
    getKey? (combinedScores (3 / 5) [(chunkSolar, 2)] [chunkWind, chunkSolar])
        (doc_key chunkSolar) =
      some (chunkSolar, 3 / 5 * invRank 0 + (1 - 3 / 5) * invRank 1) :=
  search_hybrid_score_formula.1 (3 / 5) [(chunkSolar, 2)] [chunkWind, chunkSolar]
    0 1 chunkSolar 2 (by decide) (by decide) rfl rfl

/-- C9: when one chunk identity occurs at several dense ranks only the
last occurrence contributes (plain dict assignment overwrites), while
several lexical occurrences of one identity have their contributions
summed. -/
theorem search_hybrid_duplicate_policy :
    (∀ (alpha : ℚ) (pre1 pre2 post : List (Chunk × ℚ)) (c : Chunk) (q1 q2 : ℚ)
      (bh : List Chunk),
      (∀ p ∈ post, doc_key p.1 ≠ doc_key c) →
      (∀ c' ∈ bh, doc_key c' ≠ doc_key c) →
      getKey? (combinedScores alpha (pre1 ++ (c, q1) :: (pre2 ++ (c, q2) :: post)) bh)
          (doc_key c) =
        some (c, alpha * invRank (pre1.length + 1 + pre2.length))) ∧
    (∀ (alpha : ℚ) (pre1 pre2 post : List Chunk) (c : Chunk)
      (vh : List (Chunk × ℚ)),
      (∀ p ∈ vh, doc_key p.1 ≠ doc_key c) →
      (∀ c' ∈ pre1, doc_key c' ≠ doc_key c) →
      (∀ c' ∈ pre2, doc_key c' ≠ doc_key c) →
      (∀ c' ∈ post, doc_key c' ≠ doc_key c) →
      getKey? (combinedScores alpha vh (pre1 ++ c :: (pre2 ++ c :: post)))
          (doc_key c) =
        some (c, (1 - alpha) * invRank pre1.length +
          (1 - alpha) * invRank (pre1.length + 1 + pre2.length))) := by
  constructor
  · intro alpha pre1 pre2 post c q1 q2 bh hpost hbh
    have hassoc : (pre1 ++ (c, q1) :: pre2) ++ (c, q2) :: post =
        pre1 ++ (c, q1) :: (pre2 ++ (c, q2) :: post) := by
      rw [List.append_assoc, List.cons_append]
    have hd := denseEntry_append_last alpha (pre1 ++ (c, q1) :: pre2) 0 c q2 post hpost
    rw [hassoc, Nat.zero_add] at hd
    have hlen : (pre1 ++ (c, q1) :: pre2).length = pre1.length + 1 + pre2.length := by
      simp only [List.length_append, List.length_cons]
      omega
    rw [hlen] at hd
    have hlc := lexContrib_eq_zero alpha bh 0 (doc_key c) hbh
    rw [getKey?_combinedScores, mergedEntry, hd, hlc]
    simp
  · intro alpha pre1 pre2 post c vh hvh hpre1 hpre2 hpost
    have hd := denseEntry_eq_none alpha vh 0 (doc_key c) hvh
    have hfl : firstLex (pre1 ++ c :: (pre2 ++ c :: post)) (doc_key c) = some c := by
      rw [firstLex_append_of_none pre1 (doc_key c) (c :: (pre2 ++ c :: post)) hpre1,
        firstLex, if_pos rfl]
    have hz1 := lexContrib_eq_zero alpha pre1 0 (doc_key c) hpre1
    have hz2 := lexContrib_eq_zero alpha pre2 (pre1.length + 1) (doc_key c) hpre2
    have hz3 := lexContrib_eq_zero alpha post (pre1.length + 1 + pre2.length + 1)
      (doc_key c) hpost
    have hlc : lexContrib alpha (doc_key c) 0 (pre1 ++ c :: (pre2 ++ c :: post)) =
        (1 - alpha) * invRank pre1.length +
          (1 - alpha) * invRank (pre1.length + 1 + pre2.length) := by
      rw [lexContrib_append alpha (doc_key c) pre1 0 (c :: (pre2 ++ c :: post)),
        hz1, zero_add, Nat.zero_add, lexContrib_cons_self,
        lexContrib_append alpha (doc_key c) pre2 (pre1.length + 1) (c :: post),
        hz2, zero_add, lexContrib_cons_self, hz3, add_zero]
    rw [getKey?_combinedScores, mergedEntry, hd, hfl, hlc]

theorem search_hybrid_duplicate_policy_witness :
    getKey? (combinedScores (3 / 5) [(chunkSolar, 5), (chunkSolar, 9)] [])
        (doc_key chunkSolar) =
      some (chunkSolar, 3 / 5 * invRank 1) :=
  search_hybrid_duplicate_policy.1 (3 / 5) [] [] [] chunkSolar 5 9 []
    (by simp) (by simp)

/-- C2: for every pair of hit lists and every positive k, the ranking
output exists, has at most k entries, and is sorted by non-increasing
combined score. -/
theorem search_hybrid_output_sorted :
    ∀ (alpha : ℚ) (vh : List (Chunk × ℚ)) (bh : List Chunk) (k : Int),
      0 < k →
      ∃ l, search_hybrid true vh bh k alpha = Except.ok l ∧
        l.length ≤ k.toNat ∧
        List.Pairwise (fun x y : Chunk × ℚ => y.2 ≤ x.2) l := by
  intro alpha vh bh k hk
  refine ⟨_, search_hybrid_true_eq alpha vh bh k, ?_, ?_⟩
  · rw [pySliceTo, if_pos (le_of_lt hk), List.length_take]
    exact inf_le_left
  · have hsorted := List.sorted_insertionSort scoreGE
      ((combinedScores alpha vh bh).map Prod.snd)
    rw [pySliceTo, if_pos (le_of_lt hk)]
    exact List.Pairwise.sublist (List.take_sublist _ _) hsorted

theorem search_hybrid_output_sorted_witness :
    ∃ l, search_hybrid true [(chunkSolar, 2)] [] 3 (1 / 2) = Except.ok l ∧
      l.length ≤ (3 : Int).toNat ∧
      List.Pairwise (fun x y : Chunk × ℚ => y.2 ≤ x.2) l :=
  search_hybrid_output_sorted (1 / 2) [(chunkSolar, 2)] [] 3 (by decide)

/-- C3: the ranking output never contains two distinct entries whose
chunks agree on source, page and text: such hits share the merge key and
are collapsed into one dict entry before sorting. -/
theorem search_hybrid_no_duplicate_identity :
    ∀ (alpha : ℚ) (vh : List (Chunk × ℚ)) (bh : List Chunk) (k : Int)
      (l : List (Chunk × ℚ)),
      search_hybrid true vh bh k alpha = Except.ok l →
      List.Pairwise (fun x y : Chunk × ℚ =>
        ¬ (x.1.source = y.1.source ∧ x.1.page = y.1.page ∧ x.1.text = y.1.text)) l := by
  intro alpha vh bh k l hl
  rw [search_hybrid_true_eq] at hl
  injection hl with hl
  subst hl
  have hnd := nodup_keys_combinedScores alpha vh bh
  have hco := coherent_combinedScores alpha vh bh
  have hkeys : (combinedScores alpha vh bh).map Prod.fst =
      (combinedScores alpha vh bh).map (fun e => doc_key e.2.1) :=
    List.map_congr_left (fun e he => (hco e he).symm)
  rw [hkeys] at hnd
  have hnd2 : List.Pairwise (fun e1 e2 : DocKey × Chunk × ℚ =>
      doc_key e1.2.1 ≠ doc_key e2.2.1) (combinedScores alpha vh bh) :=
    List.pairwise_map.mp hnd
  have hvals : List.Pairwise (fun x y : Chunk × ℚ => doc_key x.1 ≠ doc_key y.1)
      ((combinedScores alpha vh bh).map Prod.snd) :=
    List.pairwise_map.mpr hnd2
  have hsorted := (List.Perm.pairwise_iff
    (fun h he => h he.symm)
    (List.perm_insertionSort scoreGE ((combinedScores alpha vh bh).map Prod.snd))).mpr hvals
  have hslice : List.Pairwise (fun x y : Chunk × ℚ => doc_key x.1 ≠ doc_key y.1)
      (pySliceTo k (List.insertionSort scoreGE
        ((combinedScores alpha vh bh).map Prod.snd))) := by
    rw [pySliceTo]
    split_ifs <;> exact List.Pairwise.sublist (List.take_sublist _ _) hsorted
  refine hslice.imp ?_
  intro a b hab habc
  obtain ⟨h1, h2, h3⟩ := habc
  exact hab (by rw [doc_key, doc_key, h1, h2, h3])

theorem search_hybrid_no_duplicate_identity_witness :
    List.Pairwise (fun x y : Chunk × ℚ =>
      ¬ (x.1.source = y.1.source ∧ x.1.page = y.1.page ∧ x.1.text = y.1.text))
      ([] : List (Chunk × ℚ)) :=
  search_hybrid_no_duplicate_identity (1 / 2) [] [] 4 [] rfl

/-- C10 counterexample: with alpha = 1 (inside [0, 1]) a chunk appearing
only in the lexical list receives combined score (1 - 1) * 1 = 0, which
the ranking output contains, and 0 does not lie in the open-below
interval (0, 1]. -/
theorem search_hybrid_score_zero_at_alpha_one :
    search_hybrid true [] [chunkWind] 1 1 = Except.ok [(chunkWind, 0)] ∧
      ¬ ((0 : ℚ) < 0 ∧ (0 : ℚ) ≤ 1) := by
  constructor
  · rw [search_hybrid_true_eq]
    have hcs : combinedScores 1 [] [chunkWind] =
        [(doc_key chunkWind, chunkWind, (1 - 1 : ℚ) * invRank 0)] := rfl
    rw [hcs]
    norm_num [pySliceTo, List.insertionSort, List.orderedInsert, invRank]
  · norm_num

/-- C10 (amended): with each chunk identity at most once per hit list and
0 ≤ alpha ≤ 1, every combined score in the ranking output lies in the
closed interval [0, 1]; the lower endpoint is attained at the boundary
weights alpha = 0 and alpha = 1, so the open-below interval of the
original claim fails only there. -/
theorem search_hybrid_scores_in_unit_interval :
    ∀ (alpha : ℚ) (vh : List (Chunk × ℚ)) (bh : List Chunk) (k : Int)
      (l : List (Chunk × ℚ)),
      (vh.map fun p => doc_key p.1).Nodup →
      (bh.map doc_key).Nodup →
      0 ≤ alpha → alpha ≤ 1 →
      search_hybrid true vh bh k alpha = Except.ok l →
      ∀ p ∈ l, 0 ≤ p.2 ∧ p.2 ≤ 1 := by
  intro alpha vh bh k l _hndv hndb h0 h1 hl p hp
  rw [search_hybrid_true_eq] at hl
  injection hl with hl
  subst hl
  have hp1 : p ∈ List.insertionSort scoreGE
      ((combinedScores alpha vh bh).map Prod.snd) := by
    rw [pySliceTo] at hp
    split_ifs at hp <;> exact List.take_subset _ _ hp
  rw [List.mem_insertionSort] at hp1
  obtain ⟨e, hem, hpe⟩ := List.mem_map.mp hp1
  obtain ⟨ek, ev⟩ := e
  have hkey : getKey? (combinedScores alpha vh bh) ek = some ev :=
    getKey?_of_mem_nodup _ _ _ (nodup_keys_combinedScores alpha vh bh) hem
  rw [getKey?_combinedScores, mergedEntry] at hkey
  have hpe2 : ev = p := hpe
  subst hpe2
  cases hde : denseEntry alpha 0 vh ek with
  | some dv =>
    rw [hde] at hkey
    injection hkey with hkey
    obtain ⟨r, hr⟩ := denseEntry_score_form alpha vh 0 ek dv.1 dv.2 (by rw [hde])
    have hev2 : ev.2 = dv.2 + lexContrib alpha ek 0 bh := by rw [← hkey]
    have hdv0 : 0 ≤ dv.2 := by
      rw [hr]; exact mul_nonneg h0 (invRank_pos r).le
    have hdv1 : dv.2 ≤ alpha := by
      rw [hr]; exact mul_le_of_le_one_right h0 (invRank_le_one r)
    have hlcb : 0 ≤ lexContrib alpha ek 0 bh ∧ lexContrib alpha ek 0 bh ≤ 1 - alpha := by
      rcases lexContrib_form alpha bh 0 ek hndb with hz | ⟨s, hs⟩
      · rw [hz]
        exact ⟨le_refl 0, by linarith⟩
      · rw [hs]
        exact ⟨mul_nonneg (by linarith) (invRank_pos s).le,
          mul_le_of_le_one_right (by linarith) (invRank_le_one s)⟩
    rw [hev2]
    exact ⟨by linarith [hlcb.1], by linarith [hlcb.2]⟩
  | none =>
    rw [hde] at hkey
    cases hfl : firstLex bh ek with
    | some c =>
      rw [hfl] at hkey
      injection hkey with hkey
      have hev2 : ev.2 = lexContrib alpha ek 0 bh := by rw [← hkey]
      rcases lexContrib_form alpha bh 0 ek hndb with hz | ⟨s, hs⟩
      · rw [hev2, hz]
        norm_num
      · rw [hev2, hs]
        refine ⟨mul_nonneg (by linarith) (invRank_pos s).le, ?_⟩
        have hub := mul_le_of_le_one_right
          (show (0 : ℚ) ≤ 1 - alpha by linarith) (invRank_le_one s)
        linarith
    | none =>
      rw [hfl] at hkey
      exact absurd hkey (by simp)

theorem search_hybrid_scores_in_unit_interval_witness :
    0 ≤ (1 / 2 : ℚ) * invRank 0 ∧ (1 / 2 : ℚ) * invRank 0 ≤ 1 :=
  search_hybrid_scores_in_unit_interval (1 / 2) [(chunkSolar, 3)] [] 1
    [(chunkSolar, (1 / 2 : ℚ) * invRank 0)] (by decide) (by decide)
    (by norm_num) (by norm_num) rfl
    (chunkSolar, (1 / 2 : ℚ) * invRank 0) (by simp)

end GreenBond
